import Mathlib

/-
  Formal model of the token-budget chunking and embedding-aggregation core of
  src/clippy/src/app.py (a Flask service around CLIP ViT-L/14).

  Modelling conventions:
  * Token ids are natural numbers; a tokenizer is a pair of opaque pure maps
    (the Python tokenizer is deterministic and memoized with lru_cache, which
    is semantically transparent for a pure function).
  * Tensors of dimension d are functions Fin d → ℚ; torch arithmetic
    (stack/mean, +, /) is modelled exactly over ℚ.
  * The opaque model calls get_text_features / get_image_features are
    parameters (raw feature vector together with the value of its norm);
    the code divides by the norm, which is modelled by vecScaleInvNorm.
  * Python for-loops with break (lines 63-69 and 81-89) are modelled by
    structural recursion on a fuel argument; each iteration advances the
    offset by step_size ≥ 1, so fuel = token_count is always sufficient
    (the callers pass exactly that).
-/

namespace Clippy

/-- app.py line 20: `MAX_CONTEXT_LENGTH = 77` (informational). -/
def MAX_CONTEXT_LENGTH : ℕ := 77

/-- app.py line 21: `CHUNK_SIZE = 64`. -/
def CHUNK_SIZE : ℕ := 64

/-- app.py line 22: `SLIDING_WINDOW_STEP = 32`. -/
def SLIDING_WINDOW_STEP : ℕ := 32

/-- The tokenizer adapter: `tokenizer.encode(text, add_special_tokens=False)`
(line 43, memoized by `lru_cache`, pure) and
`tokenizer.decode(chunk_tokens, skip_special_tokens=True)` (line 85). -/
structure Tokenizer where
  encode : String → List ℕ
  decode : List ℕ → String

/-- The loop of `calculate_sliding_window_chunks` (app.py lines 62-69),
recorded as the list of emitted half-open windows `(i, i + len)` where
`len = min chunk_size (token_count - i)` is the length of `tokens[i:i+chunk_size]`.
`fuel` bounds the number of iterations; callers pass `token_count`, which
suffices because each iteration advances `i` by `step_size ≥ 1`. -/
def planAux (token_count chunk_size step_size : ℕ) : ℕ → ℕ → List (ℕ × ℕ)
  | 0, _ => []
  | fuel + 1, i =>
    if i < token_count then
      -- line 64-66: chunk_tokens = min(chunk_size, token_count - i); break if too short
      if min chunk_size (token_count - i) < chunk_size / 2 then []
      -- line 68-69: emit, then break once i + chunk_size >= token_count
      else if token_count ≤ i + chunk_size then [(i, i + min chunk_size (token_count - i))]
      else (i, i + min chunk_size (token_count - i)) ::
        planAux token_count chunk_size step_size fuel (i + step_size)
    else []

/-- The counting loop of `calculate_sliding_window_chunks` (app.py lines 62-69):
`num_chunks` accumulated from offset `i` on. -/
def countAux (token_count chunk_size step_size : ℕ) : ℕ → ℕ → ℕ
  | 0, _ => 0
  | fuel + 1, i =>
    if i < token_count then
      if min chunk_size (token_count - i) < chunk_size / 2 then 0
      else if token_count ≤ i + chunk_size then 1
      else 1 + countAux token_count chunk_size step_size fuel (i + step_size)
    else 0

/-- The slicing loop of `chunk_text_tokens_sliding_window` (app.py lines 80-89):
each iteration takes `chunk_tokens = tokens[i:i + chunk_size]`, stops without
emitting if it is shorter than `chunk_size // 2`, otherwise appends the decoded
chunk text, and stops after emitting once `i + chunk_size >= len(tokens)`. -/
def chunksAux (tok : Tokenizer) (tokens : List ℕ) (chunk_size step_size : ℕ) :
    ℕ → ℕ → List String
  | 0, _ => []
  | fuel + 1, i =>
    if i < tokens.length then
      if ((tokens.drop i).take chunk_size).length < chunk_size / 2 then []
      else if tokens.length ≤ i + chunk_size then
        [tok.decode ((tokens.drop i).take chunk_size)]
      else tok.decode ((tokens.drop i).take chunk_size) ::
        chunksAux tok tokens chunk_size step_size fuel (i + step_size)
    else []

/-- app.py lines 58-70, `calculate_sliding_window_chunks(token_count)`:
returns 1 when `token_count <= CHUNK_SIZE`, otherwise `max(1, num_chunks)`
from the counting loop.  The Python keyword defaults
`chunk_size=CHUNK_SIZE, step_size=SLIDING_WINDOW_STEP` are never overridden
by any caller, so they are applied here. -/
def calculate_sliding_window_chunks (token_count : ℕ) : ℕ :=
  if token_count ≤ CHUNK_SIZE then 1
  else max 1 (countAux token_count CHUNK_SIZE SLIDING_WINDOW_STEP token_count 0)

/-- The window plan of the sliding-window chunker: the single whole-range
window when `token_count ≤ CHUNK_SIZE` (lines 59-60 / 77-78), otherwise the
windows emitted by the loop of lines 62-69 / 81-89 (both loops emit at the
same offsets with the same lengths). -/
def planWindows (token_count : ℕ) : List (ℕ × ℕ) :=
  if token_count ≤ CHUNK_SIZE then [(0, token_count)]
  else planAux token_count CHUNK_SIZE SLIDING_WINDOW_STEP token_count 0

/-- app.py lines 72-93, `chunk_text_tokens_sliding_window(text)`: encodes the
text; if it fits in `CHUNK_SIZE` tokens returns `[text]` (the original string,
line 78), otherwise the decoded overlapping chunks from the sliding loop. -/
def chunk_text_tokens_sliding_window (tok : Tokenizer) (text : String) : List String :=
  let tokens := tok.encode text
  if tokens.length ≤ CHUNK_SIZE then [text]
  else chunksAux tok tokens CHUNK_SIZE SLIDING_WINDOW_STEP tokens.length 0

/-
  Vector model: a torch tensor of dimension d is a function Fin d → ℚ.
-/

/-- Squared Euclidean norm of a d-dimensional vector. -/
def normSq {d : ℕ} (v : Fin d → ℚ) : ℚ := ∑ k, v k ^ 2

/-- Division of a tensor by a scalar, `features / features.norm(dim=-1, keepdim=True)`
(app.py lines 101, 108, 218, 228, 323, 330), with `n` the value of the norm. -/
def vecScaleInvNorm {d : ℕ} (v : Fin d → ℚ) (n : ℚ) : Fin d → ℚ :=
  fun k => v k / n

/-- The proposition that `n` is the Euclidean norm of `v`. -/
def IsL2Norm {d : ℕ} (v : Fin d → ℚ) (n : ℚ) : Prop :=
  0 ≤ n ∧ n ^ 2 = normSq v

/-- `torch.stack(features).mean(dim=0)` (app.py lines 110, 231, 333):
element-wise arithmetic mean of a list of equal-dimension tensors. -/
def stackMean {d : ℕ} (vs : List (Fin d → ℚ)) : Fin d → ℚ :=
  fun k => (vs.map (fun v => v k)).sum / (vs.length : ℚ)

/-- app.py line 335: `combined_features = (image_features + text_features) / 2`. -/
def combine_features {d : ℕ} (image_features text_features : Fin d → ℚ) : Fin d → ℚ :=
  fun k => (image_features k + text_features k) / 2

/-- The opaque text model: `model.get_text_features(**inputs)` produces the raw
feature vector, whose Euclidean norm the code then reads off with `.norm(dim=-1)`.
Both are parameters of the model (pure given a loaded model). -/
structure TextModel (d : ℕ) where
  raw : String → Fin d → ℚ
  norm : String → ℚ

/-- The normalized text features of one string:
`text_features / text_features.norm(dim=-1, keepdim=True)` (app.py lines 100-101,
107-108, 317 via process_text_chunks). -/
def textFeat {d : ℕ} (tm : TextModel d) (s : String) : Fin d → ℚ :=
  vecScaleInvNorm (tm.raw s) (tm.norm s)

/-- The opaque image model: `model.get_image_features(**inputs)` and the value
of its norm, for an abstract already-decoded image type. -/
structure ImageModel (Image : Type) (d : ℕ) where
  raw : Image → Fin d → ℚ
  norm : Image → ℚ

/-- The normalized image features of one image:
`image_features / image_features.norm(dim=-1, keepdim=True)`
(app.py lines 217-218, 227-228, 322-323, 329-330). -/
def imageFeat {Image : Type} {d : ℕ} (m : ImageModel Image d) (img : Image) : Fin d → ℚ :=
  vecScaleInvNorm (m.raw img) (m.norm img)

/-- app.py lines 95-110, `process_text_chunks(text)`: chunk the text; with a
single chunk embed the original `text` directly (lines 97-101); otherwise embed
each chunk, normalize each, and return the element-wise mean of the chunk
features (lines 103-110) — note: the mean is NOT renormalized. -/
def process_text_chunks {d : ℕ} (tok : Tokenizer) (tm : TextModel d) (text : String) :
    Fin d → ℚ :=
  let chunks := chunk_text_tokens_sliding_window tok text
  if chunks.length = 1 then textFeat tm text
  else stackMean (chunks.map (textFeat tm))

/-- The embedding computed by the `/embed/image` route (app.py lines 212-232):
one image → its normalized features directly; several images → the element-wise
mean of the normalized per-image features (NOT renormalized). -/
def embed_image_vector {Image : Type} {d : ℕ} (m : ImageModel Image d)
    (images : List Image) : Fin d → ℚ :=
  match images with
  | [img] => imageFeat m img
  | _ => stackMean (images.map (imageFeat m))

/-- Metadata of the `/embed/image` route (app.py lines 234-237). -/
structure ImageMeta where
  num_images : ℕ
  processing_method : String
deriving DecidableEq

/-- app.py lines 170-243, the success path of the `/embed/image` route with its
already-decoded image list: embedding plus metadata. -/
def embed_image {Image : Type} {d : ℕ} (m : ImageModel Image d) (images : List Image) :
    (Fin d → ℚ) × ImageMeta :=
  (embed_image_vector m images,
   ⟨images.length, if images.length = 1 then "single" else "averaged"⟩)

/-- Metadata of the `/embed/text` route (app.py lines 154-159). -/
structure TextMeta where
  chunked : Bool
  num_chunks : ℕ
  original_token_count : ℕ
  chunk_method : String
deriving DecidableEq

/-- app.py lines 126-165, the success path of the `/embed/text` route:
`process_text_chunks`, then metadata from the token count (lines 150-159). -/
def embed_text {d : ℕ} (tok : Tokenizer) (tm : TextModel d) (text : String) :
    (Fin d → ℚ) × TextMeta :=
  let text_features := process_text_chunks tok tm text
  let tokens := tok.encode text
  let was_chunked := decide (CHUNK_SIZE < tokens.length)
  (text_features,
   ⟨was_chunked,
    if was_chunked then calculate_sliding_window_chunks tokens.length else 1,
    tokens.length,
    if was_chunked then "sliding_window" else "single"⟩)

/-- Metadata of the `/embed/combined` route, text-only branch (app.py lines 355-360). -/
structure CombinedTextOnlyMeta where
  text_chunked : Bool
  num_text_chunks : ℕ
  combination_method : String
  chunk_method : String
deriving DecidableEq

/-- app.py lines 348-360: the branch of the `/embed/combined` route taken when
no image and no image URL were provided — same computation as `/embed/text`,
with `combination_method = "text_only"` in the metadata. -/
def embed_combined_text_only {d : ℕ} (tok : Tokenizer) (tm : TextModel d) (text : String) :
    (Fin d → ℚ) × CombinedTextOnlyMeta :=
  let text_features := process_text_chunks tok tm text
  let tokens := tok.encode text
  let was_chunked := decide (CHUNK_SIZE < tokens.length)
  (text_features,
   ⟨was_chunked,
    if was_chunked then calculate_sliding_window_chunks tokens.length else 1,
    "text_only",
    if was_chunked then "sliding_window" else "single"⟩)

/-- app.py lines 290-336: the embedding of the `/embed/combined` route when
images are present: text features via `process_text_chunks` (line 317), image
features via the same single/averaged logic as the image route (lines 319-333),
then `(image_features + text_features) / 2` (line 335), NOT renormalized. -/
def embed_combined_vector {Image : Type} {d : ℕ} (tok : Tokenizer) (tm : TextModel d)
    (m : ImageModel Image d) (text : String) (images : List Image) : Fin d → ℚ :=
  let text_features := process_text_chunks tok tm text
  let image_features :=
    match images with
    | [img] => imageFeat m img
    | _ => stackMean (images.map (imageFeat m))
  combine_features image_features text_features

/-- The error the spec prescribes for a zero-norm model output.  No code in
app.py constructs or raises any such error: the normalization lines divide
unconditionally. -/
inductive EmbedError where
  | degenerateVector
deriving DecidableEq

/-- The normalization step of the chunk embedder as a fallible computation
(app.py lines 100-101 / 217-218): `features / features.norm(...)` with no
zero-norm check — it always returns the quotient and never raises. -/
def normalize_features {d : ℕ} (raw : Fin d → ℚ) (n : ℚ) :
    Except EmbedError (Fin d → ℚ) :=
  Except.ok (vecScaleInvNorm raw n)

/-
  Concrete instances used to instantiate the theorems below on explicit
  inputs: two orthogonal unit vectors of dimension 2, a two-image model
  mapping the two Booleans to them, a trivial tokenizer, a constant text
  model, and the raw vector (3, 4) of norm 5.
-/

/-- First standard basis vector of dimension 2. -/
def e0 : Fin 2 → ℚ := fun k => if k = 0 then 1 else 0

/-- Second standard basis vector of dimension 2. -/
def e1 : Fin 2 → ℚ := fun k => if k = 0 then 0 else 1

/-- A concrete two-image model: the image `true` has raw features `e0`, the
image `false` has raw features `e1`; both have norm 1. -/
def mWitness : ImageModel Bool 2 := ⟨fun b => if b then e0 else e1, fun _ => 1⟩

/-- A concrete tokenizer mapping every text to the empty token sequence. -/
def tok0 : Tokenizer := ⟨fun _ => [], fun _ => ""⟩

/-- A concrete tokenizer in which every text has exactly 200 tokens. -/
def tok200 : Tokenizer := ⟨fun _ => List.range 200, fun _ => ""⟩

/-- A concrete text model: every text has raw features `e0` and norm 1. -/
def tmW : TextModel 2 := ⟨fun _ => e0, fun _ => 1⟩

/-- The raw vector (3, 4), whose Euclidean norm is 5. -/
def rawW : Fin 2 → ℚ := fun k => if k = 0 then 3 else 4

/-
  Window-plan lemmas.  The two Python loops (counting, lines 62-69, and
  slicing, lines 81-89) have identical control flow; both are related to the
  recorded window plan `planAux`.
-/

/-- The counting loop counts exactly the windows recorded by the plan. -/
lemma countAux_eq_length_planAux (tc cs st : ℕ) :
    ∀ fuel i, countAux tc cs st fuel i = (planAux tc cs st fuel i).length := by
  intro fuel
  induction fuel with
  | zero => intro i; rfl
  | succ fuel ih =>
    intro i
    simp only [countAux, planAux]
    split
    · split
      · rfl
      · split
        · rfl
        · simp [ih, Nat.add_comm]
    · rfl

/-- The slicing loop emits exactly the decoded token slice of each planned
window. -/
lemma chunksAux_eq_map_planAux (tok : Tokenizer) (tokens : List ℕ) (cs st : ℕ) :
    ∀ fuel i, chunksAux tok tokens cs st fuel i =
      (planAux tokens.length cs st fuel i).map
        (fun w => tok.decode ((tokens.drop w.1).take cs)) := by
  intro fuel
  induction fuel with
  | zero => intro i; rfl
  | succ fuel ih =>
    intro i
    simp only [chunksAux, planAux]
    have hlen : ((tokens.drop i).take cs).length = min cs (tokens.length - i) := by
      simp [List.length_take, List.length_drop]
    rw [hlen]
    split
    · split
      · rfl
      · split
        · rfl
        · simp [ih]
    · rfl

/-- Invariant of the sliding loop with the production constants
`chunk_size = 64`, `step_size = 32`: started at an offset with more than 32
tokens remaining and enough fuel, it emits a non-empty window list whose last
window ends exactly at `tc`, whose windows all have length between 32 and 64
and end within the sequence, and whose non-final windows all have length
exactly 64. -/
lemma planAux_spec (tc : ℕ) :
    ∀ fuel i, i < tc → 32 < tc - i → tc - i ≤ fuel →
      planAux tc 64 32 fuel i ≠ [] ∧
      Option.map Prod.snd (planAux tc 64 32 fuel i).getLast? = some tc ∧
      (∀ w ∈ planAux tc 64 32 fuel i, 32 ≤ w.2 - w.1 ∧ w.2 - w.1 ≤ 64 ∧ w.2 ≤ tc) ∧
      (∀ j, j + 1 < (planAux tc 64 32 fuel i).length →
        ((planAux tc 64 32 fuel i).getD j (0, 0)).2 -
          ((planAux tc 64 32 fuel i).getD j (0, 0)).1 = 64) := by
  intro fuel
  induction fuel with
  | zero => intro i h1 h2 h3; omega
  | succ fuel ih =>
    intro i h1 h2 h3
    rw [planAux, if_pos h1, if_neg (by omega : ¬ min 64 (tc - i) < 64 / 2)]
    by_cases hend : tc ≤ i + 64
    · rw [if_pos hend]
      refine ⟨by simp, by simp; omega, ?_, ?_⟩
      · intro w hw
        rw [List.mem_singleton] at hw
        subst hw
        simp only
        omega
      · intro j hj
        simp at hj
    · rw [if_neg hend]
      obtain ⟨hne, hlast, hall, hrest⟩ := ih (i + 32) (by omega) (by omega) (by omega)
      obtain ⟨r, rs, hr⟩ := List.exists_cons_of_ne_nil hne
      refine ⟨by simp, ?_, ?_, ?_⟩
      · rw [hr, List.getLast?_cons_cons, ← hr]
        exact hlast
      · intro w hw
        rcases List.mem_cons.mp hw with hw0 | hwrest
        · subst hw0; simp only; omega
        · exact hall w hwrest
      · intro j hj
        cases j with
        | zero => simp only [List.getD_cons_zero]; omega
        | succ jj =>
          simp only [List.getD_cons_succ]
          exact hrest jj (by simpa using hj)

/-
  Aggregation lemmas: the element-wise mean of vectors of squared norm at
  most 1 again has squared norm at most 1 (but not, in general, equal to 1).
-/

/-- A sum of squares is nonnegative. -/
lemma sum_map_sq_nonneg (l : List ℚ) : 0 ≤ (l.map (fun x => x ^ 2)).sum := by
  induction l with
  | nil => simp
  | cons a t ih => simp only [List.map_cons, List.sum_cons]; positivity

/-- Discrete Cauchy-Schwarz for a list: the square of a sum is at most the
length times the sum of squares. -/
lemma sq_list_sum_le (l : List ℚ) :
    l.sum ^ 2 ≤ (l.length : ℚ) * (l.map (fun x => x ^ 2)).sum := by
  induction l with
  | nil => simp
  | cons a t ih =>
    cases t with
    | nil => simp
    | cons b ts =>
      set S := (b :: ts).sum with hS
      set T := ((b :: ts).map (fun x => x ^ 2)).sum with hT
      have hT0 : 0 ≤ T := sum_map_sq_nonneg _
      set n : ℕ := (b :: ts).length with hn
      have hn1 : 1 ≤ (n : ℚ) := by
        have : 1 ≤ n := by simp [hn]
        exact_mod_cast this
      have key : (n : ℚ) * (((n : ℚ) + 1) * (a ^ 2 + T) - (a + S) ^ 2) =
          ((n : ℚ) * a - S) ^ 2 + ((n : ℚ) + 1) * ((n : ℚ) * T - S ^ 2) := by ring
      have hnonneg : 0 ≤ ((n : ℚ) * a - S) ^ 2 + ((n : ℚ) + 1) * ((n : ℚ) * T - S ^ 2) := by
        have h1 : 0 ≤ ((n : ℚ) * a - S) ^ 2 := sq_nonneg _
        have h2 : 0 ≤ ((n : ℚ) + 1) * ((n : ℚ) * T - S ^ 2) := by
          apply mul_nonneg (by linarith)
          linarith [ih]
        linarith
      have hmul : 0 ≤ (n : ℚ) * (((n : ℚ) + 1) * (a ^ 2 + T) - (a + S) ^ 2) := by
        rw [key]; exact hnonneg
      have hgap : 0 ≤ ((n : ℚ) + 1) * (a ^ 2 + T) - (a + S) ^ 2 :=
        nonneg_of_mul_nonneg_right hmul (by linarith)
      have e1 : (a :: b :: ts).sum = a + S := by rw [List.sum_cons, ← hS]
      have e2 : ((a :: b :: ts).map (fun x => x ^ 2)).sum = a ^ 2 + T := by
        rw [List.map_cons, List.sum_cons, ← hT]
      have e3 : (((a :: b :: ts).length : ℕ) : ℚ) = (n : ℚ) + 1 := by
        rw [List.length_cons, ← hn]; push_cast; ring
      rw [e1, e2, e3]
      linarith

/-- Exchanging a finite coordinate sum with a list sum. -/
lemma sum_coords_swap {d : ℕ} (vs : List (Fin d → ℚ)) :
    ∑ k, (vs.map (fun v => (v k) ^ 2)).sum = (vs.map (fun v => normSq v)).sum := by
  induction vs with
  | nil => simp
  | cons v t ih =>
    simp only [List.map_cons, List.sum_cons, Finset.sum_add_distrib, ih, normSq]

/-- The element-wise mean of a list of vectors, each of squared norm at most 1,
has squared norm at most 1.  (The empty mean is the zero vector.) -/
lemma stackMean_normSq_le_one {d : ℕ} (vs : List (Fin d → ℚ))
    (h : ∀ v ∈ vs, normSq v ≤ 1) : normSq (stackMean vs) ≤ 1 := by
  rcases eq_or_ne vs [] with hnil | hne
  · subst hnil
    simp [stackMean, normSq]
  · have hn : 0 < vs.length := List.length_pos.mpr hne
    have hnq : 0 < (vs.length : ℚ) := by exact_mod_cast hn
    have expand : normSq (stackMean vs) =
        (∑ k, ((vs.map (fun v => v k)).sum) ^ 2) / ((vs.length : ℚ)) ^ 2 := by
      unfold normSq stackMean
      simp only [div_pow]
      rw [Finset.sum_div]
    rw [expand, div_le_one (by positivity)]
    have step1 : ∀ k : Fin d, ((vs.map (fun v => v k)).sum) ^ 2 ≤
        (vs.length : ℚ) * (vs.map (fun v => (v k) ^ 2)).sum := by
      intro k
      have := sq_list_sum_le (vs.map (fun v => v k))
      simpa [List.map_map, Function.comp] using this
    have step2 : (∑ k, ((vs.map (fun v => v k)).sum) ^ 2) ≤
        (vs.length : ℚ) * (vs.map (fun v => normSq v)).sum := by
      calc (∑ k, ((vs.map (fun v => v k)).sum) ^ 2)
          ≤ ∑ k, (vs.length : ℚ) * (vs.map (fun v => (v k) ^ 2)).sum :=
            Finset.sum_le_sum (fun k _ => step1 k)
        _ = (vs.length : ℚ) * ∑ k, (vs.map (fun v => (v k) ^ 2)).sum := by
            rw [Finset.mul_sum]
        _ = (vs.length : ℚ) * (vs.map (fun v => normSq v)).sum := by
            rw [sum_coords_swap]
    have step3 : (vs.map (fun v => normSq v)).sum ≤ (vs.length : ℚ) := by
      have := List.sum_le_card_nsmul (vs.map (fun v => normSq v)) 1
        (by intro x hx; obtain ⟨v, hv, rfl⟩ := List.mem_map.mp hx; exact h v hv)
      simpa using this
    calc (∑ k, ((vs.map (fun v => v k)).sum) ^ 2)
        ≤ (vs.length : ℚ) * (vs.map (fun v => normSq v)).sum := step2
      _ ≤ (vs.length : ℚ) * (vs.length : ℚ) := by
          exact mul_le_mul_of_nonneg_left step3 (by positivity)
      _ = ((vs.length : ℚ)) ^ 2 := by ring

/-- Dividing a vector by (the value of) its nonzero norm yields a vector of
squared norm 1. -/
lemma normSq_vecScaleInvNorm {d : ℕ} (v : Fin d → ℚ) (n : ℚ)
    (h : IsL2Norm v n) (hn : n ≠ 0) : normSq (vecScaleInvNorm v n) = 1 := by
  obtain ⟨-, hsq⟩ := h
  unfold normSq vecScaleInvNorm
  have : ∀ k : Fin d, (v k / n) ^ 2 = v k ^ 2 / n ^ 2 := by
    intro k; rw [div_pow]
  simp only [this]
  rw [← Finset.sum_div, ← normSq, ← hsq, div_self (pow_ne_zero 2 hn)]

/-- The element-wise mean of lists of vectors is invariant under permutation
of the list (sums and lengths are). -/
lemma stackMean_perm {d : ℕ} (vs vs' : List (Fin d → ℚ)) (h : vs.Perm vs') :
    stackMean vs = stackMean vs' := by
  funext k
  unfold stackMean
  rw [(h.map (fun v => v k)).sum_eq, h.length_eq]

/-- With other than exactly one image, the image route averages the
per-image normalized features. -/
lemma embed_image_vector_of_length_ne_one {Image : Type} {d : ℕ}
    (m : ImageModel Image d) (images : List Image) (h : images.length ≠ 1) :
    embed_image_vector m images = stackMean (images.map (imageFeat m)) := by
  rcases images with _ | ⟨a, _ | ⟨b, t⟩⟩
  · rfl
  · simp at h
  · rfl

/-- The combined-route embedding is the two-vector combination of the image
part (identical logic to the image route) and the text part. -/
lemma embed_combined_vector_eq {Image : Type} {d : ℕ} (tok : Tokenizer)
    (tm : TextModel d) (m : ImageModel Image d) (text : String) (images : List Image) :
    embed_combined_vector tok tm m text images =
      combine_features (embed_image_vector m images) (process_text_chunks tok tm text) := by
  unfold embed_combined_vector embed_image_vector
  rcases images with _ | ⟨a, _ | ⟨b, t⟩⟩ <;> rfl

/-- Averaging two vectors as on app.py line 335 is the element-wise mean of
the two-element list. -/
lemma combine_features_eq_stackMean {d : ℕ} (a b : Fin d → ℚ) :
    combine_features a b = stackMean [a, b] := by
  funext k
  simp [combine_features, stackMean]

/-- C2: for every tokenCount > chunkSize (with the production constants
chunkSize = 64, stepSize = 32), the window plan of the sliding-window chunker
satisfies: every window except possibly the last has length exactly chunkSize;
no emitted window has length less than chunkSize/2; and the final emitted
window's end offset equals tokenCount. -/
theorem c2_sliding_window_plan (tc : ℕ) (h : CHUNK_SIZE < tc) :
    (∀ j, j + 1 < (planWindows tc).length →
      ((planWindows tc).getD j (0, 0)).2 - ((planWindows tc).getD j (0, 0)).1 = CHUNK_SIZE) ∧
    (∀ w ∈ planWindows tc, CHUNK_SIZE / 2 ≤ w.2 - w.1) ∧
    Option.map Prod.snd (planWindows tc).getLast? = some tc := by
  have h64 : (64 : ℕ) < tc := h
  have hplan : planWindows tc = planAux tc 64 32 tc 0 := by
    unfold planWindows CHUNK_SIZE SLIDING_WINDOW_STEP
    rw [if_neg (by omega)]
  obtain ⟨-, hlast, hall, hrest⟩ := planAux_spec tc tc 0 (by omega) (by omega) (by omega)
  rw [hplan]
  refine ⟨?_, ?_, hlast⟩
  · intro j hj
    exact hrest j hj
  · intro w hw
    have := hall w hw
    show 64 / 2 ≤ w.2 - w.1
    omega

/-- C2 witness: the window-plan shape properties hold at tokenCount = 200. -/
theorem c2_witness :
    CHUNK_SIZE < 200 ∧
    ((∀ j, j + 1 < (planWindows 200).length →
        ((planWindows 200).getD j (0, 0)).2 - ((planWindows 200).getD j (0, 0)).1 = CHUNK_SIZE) ∧
      (∀ w ∈ planWindows 200, CHUNK_SIZE / 2 ≤ w.2 - w.1) ∧
      Option.map Prod.snd (planWindows 200).getLast? = some 200) :=
  ⟨by decide, c2_sliding_window_plan 200 (by decide)⟩

/-- C3 counterexample: with 200 tokens, chunkSize = 64 and stepSize = 32, the
plan has 6 windows, not 5, and its start offsets are not 0,32,64,96,128. -/
theorem c3_counterexample :
    (planWindows 200).length ≠ 5 ∧
    (planWindows 200).map Prod.fst ≠ [0, 32, 64, 96, 128] := by decide

/-- C3 amended: for a text of exactly 200 tokens with chunkSize = 64 and
stepSize = 32, the plan yields exactly 6 windows at start offsets
0,32,64,96,128,160, each at least 32 tokens long, the last ending at token
200, and the reported chunk count is 6. -/
theorem c3_amended :
    planWindows 200 = [(0, 64), (32, 96), (64, 128), (96, 160), (128, 192), (160, 200)] ∧
    calculate_sliding_window_chunks 200 = 6 ∧
    (∀ w ∈ planWindows 200, 32 ≤ w.2 - w.1) ∧
    Option.map Prod.snd (planWindows 200).getLast? = some 200 := by decide

/-- C4: for every text, the chunk count computed from the token count alone
(`calculate_sliding_window_chunks`) equals the number of text chunks actually
produced by `chunk_text_tokens_sliding_window` for the same text. -/
theorem c4_count_matches_chunks (tok : Tokenizer) (text : String) :
    calculate_sliding_window_chunks (tok.encode text).length =
      (chunk_text_tokens_sliding_window tok text).length := by
  simp only [calculate_sliding_window_chunks, chunk_text_tokens_sliding_window]
  by_cases h : (tok.encode text).length ≤ CHUNK_SIZE
  · simp [h]
  · rw [if_neg h, if_neg h]
    rw [chunksAux_eq_map_planAux, List.length_map, countAux_eq_length_planAux]
    have h64 : (64 : ℕ) < (tok.encode text).length := by
      simpa [CHUNK_SIZE] using Nat.lt_of_not_le h
    have hne := (planAux_spec (tok.encode text).length (tok.encode text).length 0
      (by omega) (by omega) (by omega)).1
    have hpos : 0 < (planAux (tok.encode text).length CHUNK_SIZE SLIDING_WINDOW_STEP
        (tok.encode text).length 0).length := by
      show 0 < (planAux (tok.encode text).length 64 32 (tok.encode text).length 0).length
      exact List.length_pos.mpr hne
    omega

/-- C5: for every tokenCount at most chunkSize, including 0, the planner
returns exactly one window covering the whole sequence, the chunker returns
the single whole text, the reported method is "single", and for every input
the planner returns at least one window (count at least 1). -/
theorem c5_single_window {d : ℕ} (tc : ℕ) (tok : Tokenizer) (tm : TextModel d)
    (text : String) (htc : tc ≤ CHUNK_SIZE)
    (htext : (tok.encode text).length ≤ CHUNK_SIZE) :
    planWindows tc = [(0, tc)] ∧
    calculate_sliding_window_chunks tc = 1 ∧
    chunk_text_tokens_sliding_window tok text = [text] ∧
    (embed_text tok tm text).2.chunk_method = "single" ∧
    (∀ n : ℕ, 1 ≤ (planWindows n).length ∧ 1 ≤ calculate_sliding_window_chunks n) := by
  refine ⟨by simp [planWindows, htc], by simp [calculate_sliding_window_chunks, htc],
    by simp [chunk_text_tokens_sliding_window, htext], ?_, ?_⟩
  · have : ¬ CHUNK_SIZE < (tok.encode text).length := Nat.not_lt.mpr htext
    simp [embed_text, this]
  · intro n
    constructor
    · by_cases hn : n ≤ CHUNK_SIZE
      · simp [planWindows, hn]
      · have h64 : (64 : ℕ) < n := by simpa [CHUNK_SIZE] using Nat.lt_of_not_le hn
        have hne := (planAux_spec n n 0 (by omega) (by omega) (by omega)).1
        simp only [planWindows, if_neg hn]
        show 1 ≤ (planAux n 64 32 n 0).length
        have := List.length_pos.mpr hne
        omega
    · by_cases hn : n ≤ CHUNK_SIZE
      · simp [calculate_sliding_window_chunks, hn]
      · simp only [calculate_sliding_window_chunks, if_neg hn]
        exact Nat.le_max_left 1 _

/-- C5 witness: instantiated at tokenCount 0 and the empty tokenization. -/
theorem c5_witness :
    (0 ≤ CHUNK_SIZE ∧ (tok0.encode ("a")).length ≤ CHUNK_SIZE) ∧
    (planWindows 0 = [(0, 0)] ∧
      calculate_sliding_window_chunks 0 = 1 ∧
      chunk_text_tokens_sliding_window tok0 ("a") = [("a")] ∧
      (embed_text tok0 tmW ("a")).2.chunk_method = "single" ∧
      (∀ n : ℕ, 1 ≤ (planWindows n).length ∧ 1 ≤ calculate_sliding_window_chunks n)) :=
  ⟨⟨by decide, by decide⟩, c5_single_window 0 tok0 tmW ("a") (by decide) (by decide)⟩

/-- C10: for every text whose token count is at most chunkSize, the chunker
returns the one-element list containing the original input text itself, and
the text path embeds the original text directly (no decode/re-encode round
trip). -/
theorem c10_short_text_identity {d : ℕ} (tok : Tokenizer) (tm : TextModel d)
    (text : String) (h : (tok.encode text).length ≤ CHUNK_SIZE) :
    chunk_text_tokens_sliding_window tok text = [text] ∧
    process_text_chunks tok tm text = textFeat tm text := by
  have h1 : chunk_text_tokens_sliding_window tok text = [text] := by
    simp [chunk_text_tokens_sliding_window, h]
  refine ⟨h1, ?_⟩
  unfold process_text_chunks
  rw [h1]
  simp

/-- C10 witness: instantiated at a text with an empty tokenization. -/
theorem c10_witness :
    ((tok0.encode ("a")).length ≤ CHUNK_SIZE) ∧
    (chunk_text_tokens_sliding_window tok0 ("a") = [("a")] ∧
      process_text_chunks tok0 tmW ("a") = textFeat tmW ("a")) :=
  ⟨by decide, c10_short_text_identity tok0 tmW ("a") (by decide)⟩

/-- C1 counterexample: two orthogonal unit image vectors given to the
multi-image aggregation yield a returned embedding whose squared norm is not 1
(it is 1/2): the mean is never renormalized. -/
theorem c1_counterexample :
    normSq (imageFeat mWitness true) = 1 ∧
    normSq (imageFeat mWitness false) = 1 ∧
    normSq (embed_image_vector mWitness [true, false]) ≠ 1 := by
  refine ⟨?_, ?_, ?_⟩
  · simp [imageFeat, mWitness, vecScaleInvNorm, e0, normSq, Fin.sum_univ_two]
  · simp [imageFeat, mWitness, vecScaleInvNorm, e1, normSq, Fin.sum_univ_two]
  · simp [embed_image_vector, stackMean, imageFeat, mWitness, vecScaleInvNorm,
      e0, e1, normSq, Fin.sum_univ_two]
    norm_num

/-- C1 amended: for unit vectors given to the aggregation step (multi-chunk
text path, multi-image path, combined text+image path), the returned embedding
is the un-renormalized element-wise mean; its squared Euclidean norm is at
most 1 (and can be strictly below 1). -/
theorem c1_amended {Image : Type} {d : ℕ} (tok : Tokenizer) (tm : TextModel d)
    (m : ImageModel Image d) (text : String) (images : List Image)
    (htm : ∀ s, normSq (textFeat tm s) = 1)
    (him : ∀ i, normSq (imageFeat m i) = 1)
    (hne : images ≠ []) :
    normSq (process_text_chunks tok tm text) ≤ 1 ∧
    normSq (embed_image_vector m images) ≤ 1 ∧
    normSq (embed_combined_vector tok tm m text images) ≤ 1 := by
  have htext : normSq (process_text_chunks tok tm text) ≤ 1 := by
    simp only [process_text_chunks]
    split
    · exact le_of_eq (htm text)
    · apply stackMean_normSq_le_one
      intro v hv
      obtain ⟨c, hc, rfl⟩ := List.mem_map.mp hv
      exact le_of_eq (htm c)
  have himg : ∀ imgs : List Image, normSq (embed_image_vector m imgs) ≤ 1 := by
    intro imgs
    by_cases h1 : imgs.length = 1
    · obtain ⟨a, rfl⟩ := List.length_eq_one.mp h1
      exact le_of_eq (him a)
    · rw [embed_image_vector_of_length_ne_one m imgs h1]
      apply stackMean_normSq_le_one
      intro v hv
      obtain ⟨i, hi, rfl⟩ := List.mem_map.mp hv
      exact le_of_eq (him i)
  refine ⟨htext, himg images, ?_⟩
  rw [embed_combined_vector_eq, combine_features_eq_stackMean]
  apply stackMean_normSq_le_one
  intro v hv
  simp only [List.mem_cons, List.mem_singleton, List.not_mem_nil, or_false] at hv
  rcases hv with rfl | rfl
  · exact himg images
  · exact htext

/-- C1 witness: the amended bound instantiated on concrete unit-vector
models. -/
theorem c1_witness :
    ((∀ s, normSq (textFeat tmW s) = 1) ∧ (∀ b, normSq (imageFeat mWitness b) = 1) ∧
      ([true, false] ≠ ([] : List Bool))) ∧
    (normSq (process_text_chunks tok0 tmW ("a")) ≤ 1 ∧
      normSq (embed_image_vector mWitness [true, false]) ≤ 1 ∧
      normSq (embed_combined_vector tok0 tmW mWitness ("a") [true, false]) ≤ 1) := by
  have hA : ∀ s, normSq (textFeat tmW s) = 1 := by
    intro s
    simp [textFeat, tmW, vecScaleInvNorm, e0, normSq, Fin.sum_univ_two]
  have hB : ∀ b, normSq (imageFeat mWitness b) = 1 := by
    intro b
    cases b <;>
      simp [imageFeat, mWitness, vecScaleInvNorm, e0, e1, normSq, Fin.sum_univ_two]
  exact ⟨⟨hA, hB, by simp⟩,
    c1_amended tok0 tmW mWitness ("a") [true, false] hA hB (by simp)⟩

/-- C6: aggregation of the image route is permutation-invariant: for a
non-empty list of images whose normalized features are unit vectors, permuting
the images yields the same returned embedding (exactly, in this rational
model). -/
theorem c6_permutation_invariant {Image : Type} {d : ℕ} (m : ImageModel Image d)
    (images images' : List Image) (hne : images ≠ [])
    (hunit : ∀ i, normSq (imageFeat m i) = 1) (hperm : images.Perm images') :
    embed_image_vector m images = embed_image_vector m images' := by
  by_cases h1 : images.length = 1
  · obtain ⟨a, rfl⟩ := List.length_eq_one.mp h1
    have h2 : images' = [a] := List.perm_singleton.mp hperm.symm
    rw [h2]
  · have h2 : images'.length ≠ 1 := by rw [← hperm.length_eq]; exact h1
    rw [embed_image_vector_of_length_ne_one m images h1,
        embed_image_vector_of_length_ne_one m images' h2]
    exact stackMean_perm _ _ (hperm.map _)

/-- C6 witness: swapping two concrete unit-feature images leaves the
aggregated embedding unchanged. -/
theorem c6_witness :
    (([true, false] : List Bool) ≠ [] ∧ (∀ b, normSq (imageFeat mWitness b) = 1) ∧
      List.Perm [true, false] [false, true]) ∧
    embed_image_vector mWitness [true, false] = embed_image_vector mWitness [false, true] := by
  have hB : ∀ b, normSq (imageFeat mWitness b) = 1 := by
    intro b
    cases b <;>
      simp [imageFeat, mWitness, vecScaleInvNorm, e0, e1, normSq, Fin.sum_univ_two]
  have hp : List.Perm [true, false] [false, true] := List.Perm.swap false true []
  exact ⟨⟨by simp, hB, hp⟩, c6_permutation_invariant mWitness _ _ (by simp) hB hp⟩

/-- C7: the combined entry point with no images reports
combination_method = "text_only" and returns an embedding identical to the
text-only entry point on the same text. -/
theorem c7_text_only_equiv {d : ℕ} (tok : Tokenizer) (tm : TextModel d) (text : String) :
    (embed_combined_text_only tok tm text).2.combination_method = "text_only" ∧
    (embed_combined_text_only tok tm text).1 = (embed_text tok tm text).1 :=
  ⟨rfl, rfl⟩

/-- C8: a single-image request reports processing_method = "single" and
returns exactly the model's direct normalized output for that image, with no
averaging applied. -/
theorem c8_single_image {Image : Type} {d : ℕ} (m : ImageModel Image d) (img : Image) :
    (embed_image m [img]).2.processing_method = "single" ∧
    (embed_image m [img]).2.num_images = 1 ∧
    (embed_image m [img]).1 = imageFeat m img :=
  ⟨rfl, rfl, rfl⟩

/-- C9 counterexample: on the zero raw vector (norm exactly 0) the
normalization step still returns a result; it does not fail with
DegenerateVectorError (no such error is ever raised by the code). -/
theorem c9_counterexample :
    normalize_features (fun _ : Fin 2 => (0 : ℚ)) 0 ≠
      Except.error EmbedError.degenerateVector ∧
    (normalize_features (fun _ : Fin 2 => (0 : ℚ)) 0).isOk = true ∧
    IsL2Norm (fun _ : Fin 2 => (0 : ℚ)) 0 :=
  ⟨by simp [normalize_features], rfl, ⟨le_refl 0, by simp [normSq]⟩⟩

/-- C9 amended: the chunk embedder always divides the raw vector by its norm
and returns the quotient — a unit vector whenever the norm is nonzero — and it
never fails: there is no zero-norm check and no DegenerateVectorError in the
code. -/
theorem c9_amended {d : ℕ} (raw : Fin d → ℚ) (n : ℚ) (h : IsL2Norm raw n) :
    normalize_features raw n = Except.ok (vecScaleInvNorm raw n) ∧
    (n ≠ 0 → normSq (vecScaleInvNorm raw n) = 1) :=
  ⟨rfl, fun hn => normSq_vecScaleInvNorm raw n h hn⟩

/-- C9 witness: the amended statement instantiated on the raw vector (3, 4)
of norm 5. -/
theorem c9_witness :
    IsL2Norm rawW 5 ∧
    (normalize_features rawW 5 = Except.ok (vecScaleInvNorm rawW 5) ∧
      ((5 : ℚ) ≠ 0 → normSq (vecScaleInvNorm rawW 5) = 1)) := by
  have h : IsL2Norm rawW 5 := by
    refine ⟨by norm_num, ?_⟩
    norm_num [normSq, rawW, Fin.sum_univ_two]
  exact ⟨h, c9_amended rawW 5 h⟩

end Clippy
